import Mathlib

/-
Verification of the mesura in-process metrics registry (src/lib.rs).

Modelling conventions:
- Rust `f64` values are idealised as rationals (ℚ): arithmetic on metric
  values is exact in the model.  The `as usize` conversion applied by
  `Counter::value` is modelled exactly, including truncation toward zero
  and saturation at `usize::MAX` on a 64-bit target.
- Heap addresses of boxed `State` values are modelled by naturals
  (`Addr`); an environment `σ : Addr → State` models dereferencing the
  raw pointer stored in a registry entry.
- The registry's `BTreeMap<String, AtomicPtr<State>>` is modelled by an
  association list sorted strictly by key (`keyLt`): `insertKey`,
  `removeKey` and `lookupKey` mirror the map operations, and iteration
  in ascending key order is iteration over the list.
- Rust's `Display` rendering of an `f64` is abstracted by the injective
  rendering `showValue`; on integral values it agrees with Rust's
  output (e.g. `3`).
-/

namespace Mesura

inductive Kind where
| Counter
| Gauge
deriving DecidableEq

structure State where
  name : String
  key : String
  help : String
  value : ℚ
  kind : Kind
deriving DecidableEq

abbrev Addr := Nat

abbrev Registry := List (String × Addr)

/-- Order on registry entries: strictly ascending keys, as in a BTreeMap. -/
abbrev keyLt (p q : String × Addr) : Prop := p.1 < q.1

/-- Translation of `format_labels` (src/lib.rs lines 149-161): zip the keys
with the stringified label values, join the `k="v"` pairs with commas and
wrap in braces; empty string when there are no labels. -/
def format_labels (keys : List String) (labels : List String) : String :=
  if 0 < keys.length then
    "\x7b" ++ String.intercalate "," ((keys.zip labels).map (fun p => p.1 ++ "=\"" ++ p.2 ++ "\"")) ++ "\x7d"
  else
    ""

/-- The label suffix as the specification describes it (§4.1): empty for
zero labels, otherwise the brace-wrapped comma-joined pairs in input order
with values verbatim.  Stated separately from `format_labels` so that the
two can be compared. -/
def labelSuffixSpec (keys : List String) (labels : List String) : String :=
  if keys = [] then
    ""
  else
    "\x7b" ++ String.intercalate "," ((keys.zip labels).map (fun p => p.1 ++ "=\"" ++ p.2 ++ "\"")) ++ "\x7d"

/-- Translation of `Counter::with_labels` (src/lib.rs lines 16-33): the
`State` it allocates.  The registration side effect on the global registry
is modelled separately by `Registry.register`; label values arrive already
stringified (`labels.map(|v| v.to_string())`). -/
def Counter.with_labels (name : String) (keys labels : List String) : State :=
  { name := name
    key := name ++ format_labels keys labels
    help := ""
    value := 0
    kind := Kind.Counter }

/-- Translation of `Counter::new` (src/lib.rs lines 12-14). -/
def Counter.new (name : String) : State :=
  Counter.with_labels name [] []

/-- Translation of `Counter::add` (src/lib.rs lines 39-41):
`self.state.value += value as f64`. -/
def Counter.add (s : State) (value : Nat) : State :=
  { s with value := s.value + (value : ℚ) }

/-- Translation of `Counter::inc` (src/lib.rs lines 35-37). -/
def Counter.inc (s : State) : State :=
  Counter.add s 1

/-- Value of `usize::MAX` on the 64-bit target. -/
def usizeMax : Nat := 2 ^ 64 - 1

/-- Rust's `f64 as usize` cast on an (idealised) value: truncate toward
zero and saturate into `0 ..= usize::MAX`.  `Int.fdiv` of numerator by
denominator is the floor; for negative values `Int.toNat` clamps to 0,
matching the saturating cast. -/
def f64ToUsize (v : ℚ) : Nat :=
  min (v.num.fdiv (v.den : Int)).toNat usizeMax

/-- Translation of `Counter::value` (src/lib.rs lines 43-45):
`self.state.value as usize`. -/
def Counter.value (s : State) : Nat :=
  f64ToUsize s.value

/-- Translation of `Gauge::with_labels` (src/lib.rs lines 57-74). -/
def Gauge.with_labels (name : String) (keys labels : List String) : State :=
  { name := name
    key := name ++ format_labels keys labels
    help := ""
    value := 0
    kind := Kind.Gauge }

/-- Translation of `Gauge::new` (src/lib.rs lines 53-55). -/
def Gauge.new (name : String) : State :=
  Gauge.with_labels name [] []

/-- Translation of `Gauge::value` (src/lib.rs lines 76-78). -/
def Gauge.value (s : State) : ℚ :=
  s.value

/-- Translation of `impl GaugeValue<usize> for Gauge`, `set` (lines 106-109). -/
def Gauge.setUsize (s : State) (v : Nat) : State :=
  { s with value := (v : ℚ) }

/-- Translation of `impl GaugeValue<usize> for Gauge`, `add` (lines 111-113). -/
def Gauge.addUsize (s : State) (v : Nat) : State :=
  { s with value := s.value + (v : ℚ) }

/-- Translation of `impl GaugeValue<i32> for Gauge`, `set` (lines 116-119);
the i32 argument is modelled as an integer. -/
def Gauge.setI32 (s : State) (v : Int) : State :=
  { s with value := (v : ℚ) }

/-- Translation of `impl GaugeValue<i32> for Gauge`, `add` (lines 121-123). -/
def Gauge.addI32 (s : State) (v : Int) : State :=
  { s with value := s.value + (v : ℚ) }

/-- Translation of `impl GaugeValue<f32> for Gauge`, `set` (lines 126-129);
the f32 argument is idealised as a rational, and the widening `as f64`
cast (exact in IEEE) is the identity embedding. -/
def Gauge.setF32 (s : State) (v : ℚ) : State :=
  { s with value := v }

/-- Translation of `impl GaugeValue<f32> for Gauge`, `add` (lines 131-133). -/
def Gauge.addF32 (s : State) (v : ℚ) : State :=
  { s with value := s.value + v }

/-- Map lookup, `self.metrics.get(&state.key)`. -/
def lookupKey : Registry → String → Option Addr
| [], _ => none
| p :: rest, k => if p.1 = k then some p.2 else lookupKey rest k

/-- Map insertion with overwrite, `self.metrics.insert(key, ptr)`,
keeping the list sorted by key. -/
def insertKey : Registry → String → Addr → Registry
| [], k, a => [(k, a)]
| p :: rest, k, a =>
  if k < p.1 then (k, a) :: p :: rest
  else if k = p.1 then (k, a) :: rest
  else p :: insertKey rest k a

/-- Map removal, `self.metrics.remove(&state.key)`. -/
def removeKey : Registry → String → Registry
| [], _ => []
| p :: rest, k => if p.1 = k then rest else p :: removeKey rest k

/-- Number of entries stored under a key. -/
def countKey (r : Registry) (k : String) : Nat :=
  r.countP (fun p => p.1 == k)

/-- Translation of `Registry::register` (src/lib.rs lines 186-189): insert
or overwrite the entry for the state's key with the state's address. -/
def Registry.register (r : Registry) (key : String) (addr : Addr) : Registry :=
  insertKey r key addr

/-- Translation of `Registry::unregister` (src/lib.rs lines 191-201): look
up the entry for the state's key; absent ⇒ no-op; present with a different
address ⇒ no-op; present with this state's own address ⇒ remove. -/
def Registry.unregister (r : Registry) (key : String) (addr : Addr) : Registry :=
  match lookupKey r key with
  | none => r
  | some a => if a ≠ addr then r else removeKey r key

/-- Renders `counter` / `gauge` for the `# TYPE` line (lines 214-217). -/
def kindStr : Kind → String
| Kind.Counter => "counter"
| Kind.Gauge => "gauge"

/-- Rendering of a metric value.  Abstracts Rust's `Display` for `f64`;
injective, and equal to Rust's output on integral values. -/
def showValue (v : ℚ) : String :=
  if v.den = 1 then toString v.num else toString v.num ++ "/" ++ toString v.den

/-- The `# HELP {name} {help}\n` line (line 219). -/
def helpLine (m : State) : String :=
  "# HELP " ++ m.name ++ " " ++ m.help ++ "\n"

/-- The `# TYPE {name} {kind}\n` line (line 221). -/
def typeLine (m : State) : String :=
  "# TYPE " ++ m.name ++ " " ++ kindStr m.kind ++ "\n"

/-- The `{key} {value}\n` sample line (line 224). -/
def sampleLine (m : State) : String :=
  m.key ++ " " ++ showValue m.value ++ "\n"

/-- The header text contributed by one entry of the report loop
(lines 213-223): when the entry's family name differs from the running
`current` tracker, a `# HELP` line (only for non-empty help) followed by
the `# TYPE` line; otherwise nothing. -/
def headerChunk (current : String) (m : State) : String :=
  if m.name ≠ current then
    (if m.help ≠ "" then helpLine m else "") ++ typeLine m
  else ""

/-- The `current` tracker after one iteration of the report loop: updated
to the entry's name exactly when it differed (line 222). -/
def nextCurrent (current : String) (m : State) : String :=
  if m.name ≠ current then m.name else current

/-- The body of `Registry::encode_prometheus_report`'s loop (lines
204-225), over the dereferenced states in ascending key order: headers
when the family name changes, then the sample line. -/
def encodeEntries : String → List State → String
| _, [] => ""
| cur, m :: rest => headerChunk cur m ++ sampleLine m ++ encodeEntries (nextCurrent cur m) rest

/-- Translation of `Registry::encode_prometheus_report` (lines 203-227):
iterate the map's values in ascending key order, dereference each stored
address through the heap `σ`, and accumulate the report text starting
from the empty `current` tracker. -/
def Registry.encode_prometheus_report (r : Registry) (σ : Addr → State) : String :=
  encodeEntries "" (r.map (fun p => σ p.2))

/-- Substring containment on strings, used to state that a report
includes a given line. -/
def strContains (p s : String) : Prop :=
  ∃ a b : String, s = a ++ p ++ b

/-- Header-emission flags of the report loop: for each entry, whether a
`# TYPE` header was emitted before its sample line. -/
def headerFlags : String → List State → List Bool
| _, [] => []
| cur, m :: rest => (m.name != cur) :: headerFlags (nextCurrent cur m) rest

/-- The emission rule as the specification phrases it: an entry gets a
header exactly when its name differs from the previous entry's name, the
name before the first entry being the empty string. -/
def prevDiffFlags (l : List State) : List Bool :=
  (l.zip ("" :: l.map State.name)).map (fun p => p.1.name != p.2)

/-- Number of `# TYPE` lines emitted for family `F` by the report loop. -/
def typeHeaderCount (F : String) : String → List State → Nat
| _, [] => 0
| cur, m :: rest =>
  (if m.name = F ∧ m.name ≠ cur then 1 else 0) + typeHeaderCount F (nextCurrent cur m) rest

/-- Number of `# HELP` lines emitted for family `F` by the report loop. -/
def helpHeaderCount (F : String) : String → List State → Nat
| _, [] => 0
| cur, m :: rest =>
  (if m.name = F ∧ m.name ≠ cur ∧ m.help ≠ "" then 1 else 0) + helpHeaderCount F (nextCurrent cur m) rest

/-- The `current` tracker after the loop has processed a list of entries. -/
def currentAfter (cur : String) (l : List State) : String :=
  l.foldl nextCurrent cur

/-- The report loop with the `# HELP` emission removed, i.e. an encoder
whose output never contains a `# HELP` line (what the spec promises for
instruments whose help text is empty). -/
def headerChunkNoHelp (current : String) (m : State) : String :=
  if m.name ≠ current then typeLine m else ""

/-- Help-free variant of `encodeEntries`. -/
def encodeEntriesNoHelp : String → List State → String
| _, [] => ""
| cur, m :: rest => headerChunkNoHelp cur m ++ sampleLine m ++ encodeEntriesNoHelp (nextCurrent cur m) rest

-- Basic lemmas

theorem nextCurrent_eq (cur : String) (m : State) : nextCurrent cur m = m.name := by
  unfold nextCurrent
  split
  · rfl
  · next h => exact (not_not.mp h).symm

theorem str_append_assoc (a b c : String) : a ++ b ++ c = a ++ (b ++ c) := by
  apply String.ext
  simp [String.data_append, List.append_assoc]

-- Registry map lemmas

theorem lookupKey_eq_none_of_forall (r : Registry) (k : String)
    (h : ∀ q ∈ r, q.1 ≠ k) : lookupKey r k = none := by
  induction r with
  | nil => rfl
  | cons p rest ih =>
    rw [lookupKey, if_neg (h p (List.mem_cons_self p rest))]
    exact ih (fun q hq => h q (List.mem_cons_of_mem p hq))

theorem lookupKey_insertKey_self (r : Registry) (k : String) (a : Addr) :
    lookupKey (insertKey r k a) k = some a := by
  induction r with
  | nil => simp [insertKey, lookupKey]
  | cons p rest ih =>
    by_cases h1 : k < p.1
    · simp [insertKey, h1, lookupKey]
    · by_cases h2 : k = p.1
      · simp [insertKey, h1, h2, lookupKey]
      · have hne : p.1 ≠ k := fun hh => h2 hh.symm
        simp [insertKey, h1, h2, lookupKey, hne, ih]

theorem lookupKey_insertKey_ne (r : Registry) (k k2 : String) (a : Addr) (h : k2 ≠ k) :
    lookupKey (insertKey r k a) k2 = lookupKey r k2 := by
  have hk : k ≠ k2 := fun hh => h hh.symm
  induction r with
  | nil =>
    rw [insertKey]
    simp only [lookupKey]
    rw [if_neg hk]
  | cons p rest ih =>
    by_cases h1 : k < p.1
    · rw [insertKey, if_pos h1]
      simp only [lookupKey]
      rw [if_neg hk]
    · by_cases h2 : k = p.1
      · have hp : p.1 ≠ k2 := fun hh => hk (h2.trans hh)
        rw [insertKey, if_neg h1, if_pos h2]
        simp only [lookupKey]
        rw [if_neg hk, if_neg hp]
      · by_cases h3 : p.1 = k2
        · rw [insertKey, if_neg h1, if_neg h2]
          simp only [lookupKey]
          rw [if_pos h3, if_pos h3]
        · rw [insertKey, if_neg h1, if_neg h2]
          simp only [lookupKey]
          rw [if_neg h3, if_neg h3, ih]

theorem mem_insertKey (r : Registry) (k : String) (a : Addr) (q : String × Addr)
    (h : q ∈ insertKey r k a) : q ∈ r ∨ q = (k, a) := by
  induction r with
  | nil =>
    right
    simpa [insertKey] using h
  | cons p rest ih =>
    by_cases h1 : k < p.1
    · rw [insertKey, if_pos h1] at h
      rcases List.mem_cons.mp h with hq | hq
      · exact Or.inr hq
      · exact Or.inl hq
    · by_cases h2 : k = p.1
      · rw [insertKey, if_neg h1, if_pos h2] at h
        rcases List.mem_cons.mp h with hq | hq
        · exact Or.inr hq
        · exact Or.inl (List.mem_cons_of_mem p hq)
      · rw [insertKey, if_neg h1, if_neg h2] at h
        rcases List.mem_cons.mp h with hq | hq
        · exact Or.inl (hq ▸ List.mem_cons_self p rest)
        · rcases ih hq with hq2 | hq2
          · exact Or.inl (List.mem_cons_of_mem p hq2)
          · exact Or.inr hq2

theorem self_mem_insertKey (r : Registry) (k : String) (a : Addr) :
    (k, a) ∈ insertKey r k a := by
  induction r with
  | nil => simp [insertKey]
  | cons p rest ih =>
    by_cases h1 : k < p.1
    · simp [insertKey, h1]
    · by_cases h2 : k = p.1
      · simp [insertKey, h1, h2]
      · simp [insertKey, h1, h2, ih]

theorem pairwise_insertKey (r : Registry) (k : String) (a : Addr)
    (h : List.Pairwise keyLt r) : List.Pairwise keyLt (insertKey r k a) := by
  induction r with
  | nil => simp [insertKey]
  | cons p rest ih =>
    rcases List.pairwise_cons.mp h with ⟨h1, h2⟩
    by_cases hlt : k < p.1
    · rw [insertKey, if_pos hlt]
      refine List.pairwise_cons.mpr ⟨?_, h⟩
      intro q hq
      rcases List.mem_cons.mp hq with hq | hq
      · rw [hq]
        exact hlt
      · exact lt_trans hlt (h1 q hq)
    · by_cases heq : k = p.1
      · rw [insertKey, if_neg hlt, if_pos heq]
        refine List.pairwise_cons.mpr ⟨?_, h2⟩
        intro q hq
        have hpq : p.1 < q.1 := h1 q hq
        show k < q.1
        rw [heq]
        exact hpq
      · rw [insertKey, if_neg hlt, if_neg heq]
        refine List.pairwise_cons.mpr ⟨?_, ih h2⟩
        intro q hq
        rcases mem_insertKey rest k a q hq with hq2 | hq2
        · exact h1 q hq2
        · rw [hq2]
          exact lt_of_le_of_ne (not_lt.mp hlt) (fun hh => heq hh.symm)

theorem countKey_cons (p : String × Addr) (l : Registry) (k : String) :
    countKey (p :: l) k = countKey l k + (if p.1 = k then 1 else 0) := by
  by_cases hp : p.1 = k <;> simp [countKey, List.countP_cons, hp]

theorem countKey_eq_zero (r : Registry) (k : String) (h : ∀ q ∈ r, q.1 ≠ k) :
    countKey r k = 0 := by
  unfold countKey
  rw [List.countP_eq_zero]
  intro q hq
  simp only [beq_iff_eq]
  exact h q hq

theorem countKey_insertKey (r : Registry) (k : String) (a : Addr)
    (h : List.Pairwise keyLt r) : countKey (insertKey r k a) k = 1 := by
  induction r with
  | nil => simp [insertKey, countKey]
  | cons p rest ih =>
    rcases List.pairwise_cons.mp h with ⟨h1, h2⟩
    by_cases hlt : k < p.1
    · rw [insertKey, if_pos hlt, countKey_cons, if_pos rfl]
      have hz : countKey (p :: rest) k = 0 := by
        apply countKey_eq_zero
        intro q hq
        rcases List.mem_cons.mp hq with hq | hq
        · rw [hq]
          exact ne_of_gt hlt
        · exact ne_of_gt (lt_trans hlt (h1 q hq))
      rw [hz]
    · by_cases heq : k = p.1
      · rw [insertKey, if_neg hlt, if_pos heq, countKey_cons, if_pos rfl]
        have hz : countKey rest k = 0 := by
          apply countKey_eq_zero
          intro q hq
          have hpq : p.1 < q.1 := h1 q hq
          rw [← heq] at hpq
          exact ne_of_gt hpq
        rw [hz]
      · have hp : p.1 ≠ k := fun hh => heq hh.symm
        rw [insertKey, if_neg hlt, if_neg heq, countKey_cons, if_neg hp, ih h2]

theorem lookupKey_removeKey_self (r : Registry) (k : String)
    (h : List.Pairwise keyLt r) : lookupKey (removeKey r k) k = none := by
  induction r with
  | nil => rfl
  | cons p rest ih =>
    rcases List.pairwise_cons.mp h with ⟨h1, h2⟩
    by_cases hp : p.1 = k
    · rw [removeKey, if_pos hp]
      apply lookupKey_eq_none_of_forall
      intro q hq
      have hpq : p.1 < q.1 := h1 q hq
      rw [hp] at hpq
      exact ne_of_gt hpq
    · rw [removeKey, if_neg hp, lookupKey, if_neg hp]
      exact ih h2

theorem lookupKey_removeKey_ne (r : Registry) (k k2 : String) (h : k2 ≠ k) :
    lookupKey (removeKey r k) k2 = lookupKey r k2 := by
  induction r with
  | nil => rfl
  | cons p rest ih =>
    by_cases hp : p.1 = k
    · have hpk : p.1 ≠ k2 := by
        rw [hp]
        exact fun hh => h hh.symm
      rw [removeKey, if_pos hp]
      simp only [lookupKey]
      rw [if_neg hpk]
    · by_cases hp2 : p.1 = k2
      · rw [removeKey, if_neg hp]
        simp only [lookupKey]
        rw [if_pos hp2, if_pos hp2]
      · rw [removeKey, if_neg hp]
        simp only [lookupKey]
        rw [if_neg hp2, if_neg hp2, ih]

theorem append_right_ne_empty (a b : String) (h : b ≠ "") : a ++ b ≠ "" := by
  intro hab
  apply h
  have hd : a.data ++ b.data = [] := by
    have hc := congrArg String.data hab
    simpa [String.data_append] using hc
  have hb : b.data = [] := (List.append_eq_nil.mp hd).2
  exact String.ext hb

theorem typeLine_ne_empty (m : State) : typeLine m ≠ "" := by
  unfold typeLine
  apply append_right_ne_empty
  decide

theorem headerChunk_ne_empty_iff (cur : String) (m : State) :
    headerChunk cur m ≠ "" ↔ m.name ≠ cur := by
  by_cases h : m.name = cur
  · simp [headerChunk, h]
  · have hchunk : headerChunk cur m = (if m.help ≠ "" then helpLine m else "") ++ typeLine m := by
      simp [headerChunk, h]
    rw [hchunk]
    constructor
    · intro _
      exact h
    · intro _
      exact append_right_ne_empty _ _ (typeLine_ne_empty m)

theorem headerFlags_zip (l : List State) : ∀ cur : String,
    headerFlags cur l = (l.zip (cur :: l.map State.name)).map (fun p => p.1.name != p.2) := by
  induction l with
  | nil => intro cur; rfl
  | cons m rest ih =>
    intro cur
    simp only [headerFlags, nextCurrent_eq, List.map_cons, List.zip_cons_cons, ih m.name]

theorem typeHeaderCount_eq_zero (F : String) : ∀ l : List State,
    (∀ q ∈ l, q.name ≠ F) → ∀ cur, typeHeaderCount F cur l = 0 := by
  intro l
  induction l with
  | nil => intro _ cur; rfl
  | cons m rest ih =>
    intro h cur
    have hm : m.name ≠ F := h m (List.mem_cons_self m rest)
    have hrest := fun q hq => h q (List.mem_cons_of_mem m hq)
    simp only [typeHeaderCount, nextCurrent_eq]
    rw [if_neg (fun hc => hm hc.1), ih hrest m.name]

theorem typeHeaderCount_eq_zero_currEq (F : String) : ∀ l : List State,
    (∀ q ∈ l, q.name = F) → typeHeaderCount F F l = 0 := by
  intro l
  induction l with
  | nil => intro _; rfl
  | cons m rest ih =>
    intro h
    have hm : m.name = F := h m (List.mem_cons_self m rest)
    have hrest := fun q hq => h q (List.mem_cons_of_mem m hq)
    simp only [typeHeaderCount, nextCurrent_eq]
    rw [if_neg (fun hc => hc.2 hm), hm, ih hrest]

theorem typeHeaderCount_block_one (F : String) : ∀ l : List State,
    l ≠ [] → (∀ q ∈ l, q.name = F) → ∀ cur, cur ≠ F → typeHeaderCount F cur l = 1 := by
  intro l
  induction l with
  | nil => intro h; exact absurd rfl h
  | cons m rest ih =>
    intro _ h cur hcur
    have hm : m.name = F := h m (List.mem_cons_self m rest)
    have hrest := fun q hq => h q (List.mem_cons_of_mem m hq)
    simp only [typeHeaderCount, nextCurrent_eq]
    rw [if_pos ⟨hm, fun hh => hcur (hh.symm.trans hm)⟩, hm,
      typeHeaderCount_eq_zero_currEq F rest hrest]

theorem typeHeaderCount_append (F : String) : ∀ (a b : List State) (cur : String),
    typeHeaderCount F cur (a ++ b) =
      typeHeaderCount F cur a + typeHeaderCount F (currentAfter cur a) b := by
  intro a
  induction a with
  | nil => intro b cur; simp [typeHeaderCount, currentAfter]
  | cons m rest ih =>
    intro b cur
    simp only [List.cons_append, typeHeaderCount, currentAfter, List.foldl_cons, List.append_eq]
    rw [ih b (nextCurrent cur m)]
    simp only [currentAfter]
    rw [← Nat.add_assoc]

theorem helpHeaderCount_le (F : String) : ∀ (l : List State) (cur : String),
    helpHeaderCount F cur l ≤ typeHeaderCount F cur l := by
  intro l
  induction l with
  | nil => intro cur; exact Nat.le_refl 0
  | cons m rest ih =>
    intro cur
    simp only [helpHeaderCount, typeHeaderCount]
    apply Nat.add_le_add
    · by_cases h1 : m.name = F ∧ m.name ≠ cur ∧ m.help ≠ ""
      · rw [if_pos h1, if_pos ⟨h1.1, h1.2.1⟩]
      · rw [if_neg h1]
        exact Nat.zero_le _
    · exact ih (nextCurrent cur m)

theorem currentAfter_ne (F : String) : ∀ (l : List State) (cur : String),
    l ≠ [] → (∀ q ∈ l, q.name ≠ F) → currentAfter cur l ≠ F := by
  intro l
  induction l with
  | nil => intro cur h; exact absurd rfl h
  | cons m rest ih =>
    intro cur _ h
    have hm : m.name ≠ F := h m (List.mem_cons_self m rest)
    have hrest := fun q hq => h q (List.mem_cons_of_mem m hq)
    by_cases hr : rest = []
    · subst hr
      show nextCurrent cur m ≠ F
      rw [nextCurrent_eq]
      exact hm
    · show List.foldl nextCurrent cur (m :: rest) ≠ F
      rw [List.foldl_cons]
      exact ih (nextCurrent cur m) hr hrest

theorem encodeEntries_no_help : ∀ (l : List State) (cur : String),
    (∀ q ∈ l, q.help = "") → encodeEntries cur l = encodeEntriesNoHelp cur l := by
  intro l
  induction l with
  | nil => intro cur _; rfl
  | cons m rest ih =>
    intro cur h
    have hm : m.help = "" := h m (List.mem_cons_self m rest)
    have hrest := fun q hq => h q (List.mem_cons_of_mem m hq)
    rw [encodeEntries, encodeEntriesNoHelp, ih (nextCurrent cur m) hrest]
    have hc : headerChunk cur m = headerChunkNoHelp cur m := by
      simp only [headerChunk, headerChunkNoHelp]
      by_cases hn : m.name ≠ cur
      · rw [if_pos hn, if_pos hn, if_neg (fun hc2 => hc2 hm)]
        rfl
      · rw [if_neg hn, if_neg hn]
    rw [hc]

theorem counter_foldl_value (ds : List Nat) (s : State) :
    (List.foldl Counter.add s ds).value = s.value + (ds.sum : ℚ) := by
  induction ds generalizing s with
  | nil => simp
  | cons d t ih =>
    rw [List.foldl_cons, ih, List.sum_cons]
    show s.value + (d : ℚ) + ((t.sum : ℕ) : ℚ) = s.value + (((d + t.sum : ℕ)) : ℚ)
    push_cast
    ring

theorem f64ToUsize_natCast (n : Nat) : f64ToUsize (n : ℚ) = min n usizeMax := by
  unfold f64ToUsize
  rw [Rat.num_natCast, Rat.den_natCast, Nat.cast_one, Int.fdiv_one, Int.toNat_natCast]

theorem strContains_encode_of_mem (l : List State) (cur : String) (m : State)
    (h : m ∈ l) : strContains (sampleLine m) (encodeEntries cur l) := by
  induction l generalizing cur with
  | nil => cases h
  | cons p rest ih =>
    rcases List.mem_cons.mp h with hq | hq
    · subst hq
      exact ⟨headerChunk cur m, encodeEntries (nextCurrent cur m) rest, rfl⟩
    · obtain ⟨a, b, hab⟩ := ih (nextCurrent cur p) hq
      refine ⟨headerChunk cur p ++ sampleLine p ++ a, b, ?_⟩
      rw [encodeEntries, hab]
      simp only [str_append_assoc]

-- Claim theorems

/-- C6: the label renderer returns the empty string for zero labels and
otherwise the brace-wrapped, comma-joined `k="v"` pairs in input order
with values verbatim: `format_labels` coincides with the specification's
description `labelSuffixSpec`, and it is a pure total function. -/
theorem C6_format_labels (keys labels : List String) :
    format_labels keys labels = labelSuffixSpec keys labels ∧ format_labels [] labels = "" := by
  constructor
  · cases keys with
    | nil => simp [format_labels, labelSuffixSpec]
    | cons k t => simp [format_labels, labelSuffixSpec]
  · simp [format_labels]

/-- C7: for plain-number source types (usize, i32, f32 — normalised to
the 64-bit-float value, idealised here as exact rationals), `set x`
followed by `value` returns the normalisation of `x`, and `add x` after
`set y` makes `value` return `y + x`. -/
theorem C7_gauge_set_add (s : State) (nx ny : Nat) (ix iy : Int) (x y : ℚ) :
    Gauge.value (Gauge.setUsize s nx) = (nx : ℚ) ∧
    Gauge.value (Gauge.addUsize (Gauge.setUsize s ny) nx) = (ny : ℚ) + (nx : ℚ) ∧
    Gauge.value (Gauge.setI32 s ix) = (ix : ℚ) ∧
    Gauge.value (Gauge.addI32 (Gauge.setI32 s iy) ix) = (iy : ℚ) + (ix : ℚ) ∧
    Gauge.value (Gauge.setF32 s x) = x ∧
    Gauge.value (Gauge.addF32 (Gauge.setF32 s y) x) = y + x :=
  ⟨rfl, rfl, rfl, rfl, rfl, rfl⟩

/-- C1: `unregister` is a no-op when no entry exists for the state's key,
a no-op when the entry references a different address (the mapping is left
unchanged in both cases), and removes exactly the entry for the state's
key when that entry references the state's own address. -/
theorem C1_unregister_cases (r : Registry) (key : String) (addr : Addr) :
    (lookupKey r key = none → Registry.unregister r key addr = r) ∧
    (∀ a, lookupKey r key = some a → a ≠ addr → Registry.unregister r key addr = r) ∧
    (lookupKey r key = some addr →
      Registry.unregister r key addr = removeKey r key ∧
      (List.Pairwise keyLt r →
        lookupKey (Registry.unregister r key addr) key = none ∧
        ∀ k2, k2 ≠ key → lookupKey (Registry.unregister r key addr) k2 = lookupKey r k2)) := by
  refine ⟨?_, ?_, ?_⟩
  · intro h
    simp [Registry.unregister, h]
  · intro a h hne
    simp [Registry.unregister, h, hne]
  · intro h
    have he : Registry.unregister r key addr = removeKey r key := by
      simp [Registry.unregister, h]
    refine ⟨he, fun hp => ⟨?_, fun k2 hk2 => ?_⟩⟩
    · rw [he]
      exact lookupKey_removeKey_self r key hp
    · rw [he]
      exact lookupKey_removeKey_ne r key k2 hk2

/-- Witness for C1 at concrete inputs: a missing key is a no-op, a stale
address is a no-op, and a matching address removes the entry. -/
theorem C1_unregister_cases_witness :
    Registry.unregister [("a", 1)] "b" 7 = [("a", 1)] ∧
    Registry.unregister [("a", 1)] "a" 2 = [("a", 1)] ∧
    Registry.unregister [("a", 1)] "a" 1 = [] := by
  refine ⟨(C1_unregister_cases [("a", 1)] "b" 7).1 (by decide),
    (C1_unregister_cases [("a", 1)] "a" 2).2.1 1 (by decide) (by decide), ?_⟩
  rw [((C1_unregister_cases [("a", 1)] "a" 1).2.2 (by decide)).1]
  decide

/-- C2: after registering an older state (address `a1`) and then a newer
state (address `a2`) under the same key, destroying the older one via
`unregister` leaves the whole registry mapping unchanged, the entry still
references the newer address, and the rendered report still contains the
newer state's sample line (its key and current value). -/
theorem C2_drop_older (r : Registry) (k : String) (a1 a2 : Addr) (σ : Addr → State)
    (hne : a1 ≠ a2) :
    Registry.unregister (Registry.register (Registry.register r k a1) k a2) k a1 =
      Registry.register (Registry.register r k a1) k a2 ∧
    lookupKey (Registry.unregister (Registry.register (Registry.register r k a1) k a2) k a1) k =
      some a2 ∧
    strContains (sampleLine (σ a2))
      (Registry.encode_prometheus_report
        (Registry.unregister (Registry.register (Registry.register r k a1) k a2) k a1) σ) := by
  have hl : lookupKey (Registry.register (Registry.register r k a1) k a2) k = some a2 :=
    lookupKey_insertKey_self _ _ _
  have hu : Registry.unregister (Registry.register (Registry.register r k a1) k a2) k a1 =
      Registry.register (Registry.register r k a1) k a2 := by
    have h2 : a2 ≠ a1 := fun hh => hne hh.symm
    simp [Registry.unregister, hl, h2]
  refine ⟨hu, by rw [hu]; exact hl, ?_⟩
  rw [hu]
  show strContains (sampleLine (σ a2))
    (encodeEntries "" ((Registry.register (Registry.register r k a1) k a2).map (fun p => σ p.2)))
  apply strContains_encode_of_mem
  exact List.mem_map_of_mem _ (self_mem_insertKey _ _ _)

/-- Witness for C2 at concrete inputs. -/
theorem C2_drop_older_witness :
    Registry.unregister (Registry.register (Registry.register [] "m" 1) "m" 2) "m" 1 =
      Registry.register (Registry.register [] "m" 1) "m" 2 ∧
    lookupKey (Registry.unregister (Registry.register (Registry.register [] "m" 1) "m" 2) "m" 1)
      "m" = some 2 ∧
    strContains (sampleLine ((fun _ => Counter.new "m") 2))
      (Registry.encode_prometheus_report
        (Registry.unregister (Registry.register (Registry.register [] "m" 1) "m" 2) "m" 1)
        (fun _ => Counter.new "m")) :=
  C2_drop_older [] "m" 1 2 (fun _ => Counter.new "m") (by decide)

/-- C3: `register` always succeeds, inserting or overwriting the entry for
the state's key to reference the given address while leaving other keys
unchanged; constructing two counters with the same name and label values
yields the same key, and after registering both, the registry holds
exactly one entry for that key, referencing the most recent address. -/
theorem C3_register_overwrite (n n2 : String) (ks ks2 vs vs2 : List String)
    (r : Registry) (key : String) (a a1 a2 : Addr) :
    (n = n2 → ks = ks2 → vs = vs2 →
      (Counter.with_labels n ks vs).key = (Counter.with_labels n2 ks2 vs2).key) ∧
    lookupKey (Registry.register r key a) key = some a ∧
    (∀ k2, k2 ≠ key → lookupKey (Registry.register r key a) k2 = lookupKey r k2) ∧
    (List.Pairwise keyLt r →
      countKey
        (Registry.register (Registry.register r (Counter.with_labels n ks vs).key a1)
          (Counter.with_labels n ks vs).key a2) (Counter.with_labels n ks vs).key = 1 ∧
      lookupKey
        (Registry.register (Registry.register r (Counter.with_labels n ks vs).key a1)
          (Counter.with_labels n ks vs).key a2) (Counter.with_labels n ks vs).key = some a2) := by
  refine ⟨?_, lookupKey_insertKey_self r key a,
    fun k2 hk => lookupKey_insertKey_ne r key k2 a hk, fun hp => ⟨?_, ?_⟩⟩
  · intro h1 h2 h3
    rw [h1, h2, h3]
  · exact countKey_insertKey _ _ _ (pairwise_insertKey _ _ _ hp)
  · exact lookupKey_insertKey_self _ _ _

/-- Witness for C3 at concrete inputs. -/
theorem C3_register_overwrite_witness :
    (Counter.with_labels "m" ["k"] ["v"]).key = (Counter.with_labels "m" ["k"] ["v"]).key ∧
    countKey
      (Registry.register (Registry.register [] (Counter.with_labels "m" ["k"] ["v"]).key 1)
        (Counter.with_labels "m" ["k"] ["v"]).key 2) (Counter.with_labels "m" ["k"] ["v"]).key = 1 ∧
    lookupKey
      (Registry.register (Registry.register [] (Counter.with_labels "m" ["k"] ["v"]).key 1)
        (Counter.with_labels "m" ["k"] ["v"]).key 2) (Counter.with_labels "m" ["k"] ["v"]).key =
      some 2 := by
  refine ⟨(C3_register_overwrite "m" "m" ["k"] ["k"] ["v"] ["v"] [] "x" 0 1 2).1 rfl rfl rfl, ?_, ?_⟩
  · exact ((C3_register_overwrite "m" "m" ["k"] ["k"] ["v"] ["v"] [] "x" 0 1 2).2.2.2
      List.Pairwise.nil).1
  · exact ((C3_register_overwrite "m" "m" ["k"] ["k"] ["v"] ["v"] [] "x" 0 1 2).2.2.2
      List.Pairwise.nil).2

/-- C4 counterexample: the claim "value() returns exactly the sum of the
deltas" fails as stated, because `value()` converts the 64-bit float with
a saturating `as usize` cast: two adds of `usize::MAX` make the sum
2 ^ 65 - 2, but `value()` returns `usize::MAX` = 2 ^ 64 - 1. -/
theorem C4_counterexample :
    Counter.value
      (Counter.add (Counter.add (Counter.with_labels "c" [] []) (2 ^ 64 - 1)) (2 ^ 64 - 1)) =
      2 ^ 64 - 1 ∧
    (2 ^ 64 - 1) + (2 ^ 64 - 1) ≠ 2 ^ 64 - 1 := by
  constructor
  · show f64ToUsize ((0 : ℚ) + ((2 ^ 64 - 1 : ℕ) : ℚ) + ((2 ^ 64 - 1 : ℕ) : ℚ)) = 2 ^ 64 - 1
    have he : ((0 : ℚ) + ((2 ^ 64 - 1 : ℕ) : ℚ) + ((2 ^ 64 - 1 : ℕ) : ℚ)) =
        ((2 ^ 65 - 2 : ℕ) : ℚ) := by
      rw [zero_add, ← Nat.cast_add]
      norm_num
    rw [he, f64ToUsize_natCast]
    norm_num [usizeMax]
  · norm_num

/-- C4 (amended): for a fresh counter and any sequence of adds whose total
stays below 2 ^ 53 (exactly representable in the 64-bit float and below
the `usize` saturation bound), `value()` returns exactly the sum of the
deltas. -/
theorem C4_counter_sum (n : String) (ks vs : List String) (ds : List Nat)
    (h : ds.sum < 2 ^ 53) :
    Counter.value (List.foldl Counter.add (Counter.with_labels n ks vs) ds) = ds.sum := by
  unfold Counter.value
  rw [counter_foldl_value]
  show f64ToUsize ((0 : ℚ) + (ds.sum : ℚ)) = ds.sum
  rw [zero_add, f64ToUsize_natCast]
  exact Nat.min_eq_left (le_trans h.le (by norm_num [usizeMax]))

/-- Witness for C4 at concrete inputs. -/
theorem C4_counter_sum_witness :
    List.sum [2, 3] < 2 ^ 53 ∧
    Counter.value (List.foldl Counter.add (Counter.with_labels "c" [] []) [2, 3]) =
      List.sum [2, 3] :=
  ⟨by norm_num, C4_counter_sum "c" [] [] [2, 3] (by norm_num)⟩

/-- C5 counterexample: the claim's consequence "for a family whose keys
all sort contiguously, exactly one # TYPE line precedes its first sample"
fails as stated: a family whose name is the empty string, sorting first,
gets zero # TYPE lines, because the previous-name tracker starts as the
empty string. -/
theorem C5_counterexample :
    typeHeaderCount "" "" [Gauge.new ""] = 0 ∧
    encodeEntries "" [Gauge.new ""] = sampleLine (Gauge.new "") ∧
    typeHeaderCount "" "" [Gauge.new ""] ≠ 1 := by
  refine ⟨rfl, ?_, by decide⟩
  show headerChunk "" (Gauge.new "") ++ sampleLine (Gauge.new "") ++
    encodeEntries (nextCurrent "" (Gauge.new "")) [] = sampleLine (Gauge.new "")
  have hc : headerChunk "" (Gauge.new "") = "" := by
    simp [headerChunk, Gauge.new, Gauge.with_labels]
  rw [hc]
  show ("" : String) ++ sampleLine (Gauge.new "") ++ "" = sampleLine (Gauge.new "")
  apply String.ext
  simp [String.data_append]

/-- C5 (amended): a header is emitted for an entry exactly when its family
name differs from the previous entry's name, the name "before" the first
entry being the empty-string tracker seed (`headerFlags` equals
`prevDiffFlags`); the header consists of the `# TYPE` line, preceded by a
`# HELP` line exactly when the help text is non-empty; and for a family
whose keys sort contiguously, exactly one `# TYPE` line (and at most one
`# HELP` line) is emitted for it, provided the family name is non-empty
or some different-named entry precedes the family. -/
theorem C5_headers (l l1 lF l2 : List State) (F : String) (cur : String) (m : State)
    (rest : List State) :
    headerFlags "" l = prevDiffFlags l ∧
    encodeEntries cur (m :: rest) =
      headerChunk cur m ++ sampleLine m ++ encodeEntries m.name rest ∧
    (headerChunk cur m ≠ "" ↔ m.name ≠ cur) ∧
    (m.name ≠ cur → m.help ≠ "" → headerChunk cur m = helpLine m ++ typeLine m) ∧
    (m.name ≠ cur → m.help = "" → headerChunk cur m = typeLine m) ∧
    (l = l1 ++ lF ++ l2 → lF ≠ [] → (∀ q ∈ lF, q.name = F) → (∀ q ∈ l1, q.name ≠ F) →
      (∀ q ∈ l2, q.name ≠ F) → (F ≠ "" ∨ l1 ≠ []) →
      typeHeaderCount F "" l = 1 ∧ helpHeaderCount F "" l ≤ 1) := by
  refine ⟨?_, ?_, headerChunk_ne_empty_iff cur m, ?_, ?_, ?_⟩
  · rw [headerFlags_zip]
    rfl
  · rw [encodeEntries, nextCurrent_eq]
  · intro hn hh
    simp only [headerChunk]
    rw [if_pos hn, if_pos hh]
  · intro hn hh
    simp only [headerChunk]
    rw [if_pos hn, if_neg (fun hc => hc hh)]
    rfl
  · intro hl hne hF h1 h2 hdisj
    subst hl
    have hca1 : currentAfter "" l1 ≠ F := by
      cases l1 with
      | nil =>
        rcases hdisj with hd | hd
        · exact fun hh => hd hh.symm
        · exact absurd rfl hd
      | cons x xs => exact currentAfter_ne F (x :: xs) "" (by simp) h1
    have hT : typeHeaderCount F "" (l1 ++ lF ++ l2) = 1 := by
      rw [typeHeaderCount_append F (l1 ++ lF) l2 "", typeHeaderCount_append F l1 lF "",
        typeHeaderCount_eq_zero F l1 h1 "", typeHeaderCount_block_one F lF hne hF _ hca1,
        typeHeaderCount_eq_zero F l2 h2 _]
    exact ⟨hT, hT ▸ helpHeaderCount_le F (l1 ++ lF ++ l2) ""⟩

/-- Witness for C5 at concrete inputs: a one-variant family named "a"
sorting alone gets exactly one `# TYPE` line and at most one `# HELP`. -/
theorem C5_headers_witness :
    typeHeaderCount "a" "" [Counter.new "a"] = 1 ∧
    helpHeaderCount "a" "" [Counter.new "a"] ≤ 1 :=
  (C5_headers [Counter.new "a"] [] [Counter.new "a"] [] "a" "" (Counter.new "a")
    []).2.2.2.2.2 (by simp) (by simp) (by decide) (by simp) (by simp) (Or.inl (by decide))

/-- C9: every state created through the public construction interface has
an empty help string, every public mutation preserves the help string,
and a report rendered from entries whose help strings are all empty is
identical to the output of the help-free encoder (no `# HELP` line is
ever emitted). -/
theorem C9_no_help (n2 : String) (ks vs : List String) (s : State) (d : Nat) (i : Int)
    (x : ℚ) (cur : String) (l : List State) :
    (Counter.with_labels n2 ks vs).help = "" ∧
    (Counter.new n2).help = "" ∧
    (Gauge.with_labels n2 ks vs).help = "" ∧
    (Gauge.new n2).help = "" ∧
    (Counter.add s d).help = s.help ∧
    (Counter.inc s).help = s.help ∧
    (Gauge.setUsize s d).help = s.help ∧
    (Gauge.addUsize s d).help = s.help ∧
    (Gauge.setI32 s i).help = s.help ∧
    (Gauge.addI32 s i).help = s.help ∧
    (Gauge.setF32 s x).help = s.help ∧
    (Gauge.addF32 s x).help = s.help ∧
    ((∀ q ∈ l, q.help = "") → encodeEntries cur l = encodeEntriesNoHelp cur l) :=
  ⟨rfl, rfl, rfl, rfl, rfl, rfl, rfl, rfl, rfl, rfl, rfl, rfl,
    encodeEntries_no_help l cur⟩

/-- Witness for C9 at concrete inputs. -/
theorem C9_no_help_witness :
    encodeEntries "" [Counter.new "c"] = encodeEntriesNoHelp "" [Counter.new "c"] :=
  (C9_no_help "c" [] [] (Counter.new "c") 0 0 0 ""
    [Counter.new "c"]).2.2.2.2.2.2.2.2.2.2.2.2 (by decide)

/-- C10: because the previous-family-name tracker starts as the empty
string, a first entry whose family name is the empty string gets no
header before its sample line, and in general the header chunk is empty
exactly when the entry's name equals the tracker. -/
theorem C10_empty_name_first (m : State) (rest : List State) (cur : String) :
    (m.name = "" → encodeEntries "" (m :: rest) = sampleLine m ++ encodeEntries "" rest) ∧
    (headerChunk cur m = "" ↔ m.name = cur) := by
  constructor
  · intro h
    rw [encodeEntries, nextCurrent_eq, h]
    have hc : headerChunk "" m = "" := by
      simp [headerChunk, h]
    rw [hc]
    rfl
  · constructor
    · intro hc
      by_contra hn
      exact (headerChunk_ne_empty_iff cur m).mpr hn hc
    · intro he
      simp [headerChunk, he]

/-- Witness for C10 at concrete inputs. -/
theorem C10_empty_name_first_witness :
    encodeEntries "" [Gauge.new "", Counter.new "c"] =
      sampleLine (Gauge.new "") ++ encodeEntries "" [Counter.new "c"] :=
  (C10_empty_name_first (Gauge.new "") [Counter.new "c"] "").1 rfl

/-- C8: rendering a report from an empty registry returns the empty
string, and rendering is a total function of the registry state (no
failure mode). -/
theorem C8_empty_report (σ : Addr → State) (r : Registry) :
    Registry.encode_prometheus_report [] σ = "" ∧
    ∃ out, Registry.encode_prometheus_report r σ = out :=
  ⟨rfl, ⟨_, rfl⟩⟩

end Mesura
